import Mathlib

set_option autoImplicit false

/-!
Verification of the configuration-store subsystem of `bb_sync.py`:
the `.env` key-value store, its URL-list codec, the legacy-key migrator,
the per-repository metadata updater, and the atomic-write protocol.

Python strings are modelled as Lean `String` (lists of characters); Python
`dict[str, str]` as an insertion-ordered association list with unique keys.
-/

namespace BbSync

/-- Characters stripped by Python `str.strip()` with no argument (ASCII
whitespace; no value in this development uses the Unicode-only classes). -/
def pyIsSpace (c : Char) : Bool :=
  c == ' ' || c == '\t' || c == '\n' || c == '\r' || c == '\x0b' || c == '\x0c'

/-- Python `str.strip()` on the character list: drop leading and trailing whitespace. -/
def pyStripList (l : List Char) : List Char :=
  ((l.dropWhile pyIsSpace).reverse.dropWhile pyIsSpace).reverse

/-- Python `s.strip()`. -/
def pyStrip (s : String) : String :=
  ⟨pyStripList s.data⟩

/-- Python `str.rstrip("/")` on the character list: drop every trailing `'/'`. -/
def pyRstripSlashList (l : List Char) : List Char :=
  (l.reverse.dropWhile (fun c => c == '/')).reverse

/-- The function `normalize_url_for_list(url)`: `url.strip().rstrip("/")`. -/
def normalize_url_for_list (url : String) : String :=
  ⟨pyRstripSlashList (pyStripList url.data)⟩

/-- Line-break characters recognized by Python `str.splitlines()`. -/
def isLineBreakChar (c : Char) : Bool :=
  c == '\n' || c == '\r' || c == '\x0b' || c == '\x0c' ||
  c == '\x1c' || c == '\x1d' || c == '\x1e' || c == '\x85' ||
  c == '\u2028' || c == '\u2029'

/-- Worker for `str.splitlines()`; `acc` holds the current line reversed and
`afterCr` records whether the previous character was `'\r'`, so that `"\r\n"`
counts as one break.  A final unterminated line is emitted only when
non-empty, exactly as in Python. -/
def pySplitlinesAux : List Char → List Char → Bool → List String
  | [], acc, _ => if acc.isEmpty then [] else [⟨acc.reverse⟩]
  | c :: rest, acc, afterCr =>
    if afterCr && c == '\n' then
      pySplitlinesAux rest [] false
    else if c == '\r' then
      ⟨acc.reverse⟩ :: pySplitlinesAux rest [] true
    else if isLineBreakChar c then
      ⟨acc.reverse⟩ :: pySplitlinesAux rest [] false
    else
      pySplitlinesAux rest (c :: acc) false

/-- Python `s.splitlines()`. -/
def pySplitlines (s : String) : List String :=
  pySplitlinesAux s.data [] false

/-- Worker for `str.split(",")`; `acc` holds the current fragment reversed.
Unlike `splitlines`, a trailing separator yields a final empty fragment. -/
def pySplitCommaAux : List Char → List Char → List String
  | [], acc => [⟨acc.reverse⟩]
  | ',' :: rest, acc => ⟨acc.reverse⟩ :: pySplitCommaAux rest []
  | c :: rest, acc => pySplitCommaAux rest (c :: acc)

/-- Python `s.split(",")`. -/
def pySplitComma (s : String) : List String :=
  pySplitCommaAux s.data []

/-- The function `parse_repo_list(text)`: empty text gives `[]`; otherwise split the text
into lines, split each line on commas, strip each fragment and keep the
non-empty ones, in order. -/
def parse_repo_list (text : String) : List String :=
  if text = "" then []
  else
    (((pySplitlines text).map fun line => (pySplitComma line).map pyStrip).flatten).filter
      fun p => p != ""

/-- Python `"\n".join(items)`: join strings with a single newline between
consecutive entries. -/
def joinLines : List String → String
  | [] => ""
  | [s] => s
  | s :: rest => s ++ "\n" ++ joinLines rest

/-- A Python `dict[str, str]`: insertion-ordered association list, keys
unique. -/
abbrev EnvMap := List (String × String)

/-- Python `env_map.get(key)`. -/
def envGet : EnvMap → String → Option String
  | [], _ => none
  | (k, v) :: rest, key => if k = key then some v else envGet rest key

/-- Python `env_map[key] = val`: overwrite in place when the key is present
(position preserved), otherwise append at the end. -/
def envSet : EnvMap → String → String → EnvMap
  | [], key, val => [(key, val)]
  | (k, v) :: rest, key, val =>
    if k = key then (key, val) :: rest else (k, v) :: envSet rest key val

/-- Python `env_map.pop(key, None)`: remove the pair with the given key. -/
def envPop (m : EnvMap) (key : String) : EnvMap :=
  m.filter fun kv => kv.1 != key

/-- One character of the regex class `[A-Z0-9_]`. -/
def isOldRepoKeyChar (c : Char) : Bool :=
  c.isUpper || c.isDigit || c == '_'

/-- The test `re.fullmatch(r"REPO_[A-Z0-9_]+", k)` as a Boolean predicate: the literal
prefix `REPO_` followed by one or more characters from `[A-Z0-9_]`. -/
def matchesOldRepoKey (k : String) : Bool :=
  match k.data with
  | 'R' :: 'E' :: 'P' :: 'O' :: '_' :: rest => !rest.isEmpty && rest.all isOldRepoKeyChar
  | _ => false

/-- The function `migrate_old_repo_keys(env_map)`: iterate over a snapshot of the keys and
pop every key that fully matches the legacy pattern. -/
def migrate_old_repo_keys (env : EnvMap) : EnvMap :=
  (env.map Prod.fst).foldl
    (fun m k => if matchesOldRepoKey k then envPop m k else m) env

/-- The function `ensure_url_in_repo_list(env_map, url)`: read `REPO_LIST` (default `""`),
split into stripped non-empty lines, compare the normalized new URL against
the normalized existing entries; on a miss append the normalized URL and
store the newline-joined list back, reporting whether an addition occurred. -/
def ensure_url_in_repo_list (env : EnvMap) (url : String) : EnvMap × Bool :=
  let raw := (envGet env ("REPO_LIST")).getD ("")
  let items := ((pySplitlines raw).map pyStrip).filter fun x => x != ""
  let normalizedExisting := items.map normalize_url_for_list
  let normUrl := normalize_url_for_list url
  if normUrl ∈ normalizedExisting then (env, false)
  else (envSet env ("REPO_LIST") (joinLines (items ++ [normUrl])), true)

/-- The fixed header lines `write_env` emits before the entries. -/
def envHeaderLines : List String :=
  ["# Bitbucket Sync .env", "# Fill required values. INSECURE=true by default.", ""]

/-- The full text document `write_env` serializes for a mapping: header lines
then one `KEY=VALUE` line per entry, newline-joined, with a final newline. -/
def write_env_content (m : EnvMap) : String :=
  joinLines (envHeaderLines ++ m.map fun kv => kv.1 ++ "=" ++ kv.2) ++ "\n"

/-- Python `line.startswith("#")`: the first character is `'#'`. -/
def startsWithHash : List Char → Bool
  | [] => false
  | c :: _ => c == '#'

/-- Python `line.split("=", 1)` for a line that contains `'='`: the characters before
the first `'='` and the characters after it. -/
def splitFirstEq (l : List Char) : List Char × List Char :=
  (l.takeWhile fun c => c != '=', (l.dropWhile fun c => c != '=').drop 1)

/-- One step of `load_env_file`'s parsing loop: a line containing `'='` whose
stripped form is not a `#` comment is split on the first `'='` and its
stripped key and value stored; every other line is skipped. -/
def loadEnvStep (env : EnvMap) (line : String) : EnvMap :=
  if line.data.contains '=' && !startsWithHash (pyStripList line.data) then
    envSet env ⟨pyStripList (splitFirstEq line.data).1⟩
      ⟨pyStripList (splitFirstEq line.data).2⟩
  else env

/-- The parsing loop of `load_env_file` applied to a document's text
(`os.environ.setdefault`, an ambient convenience mirror, is outside the store
model). -/
def load_env_content (content : String) : EnvMap :=
  (pySplitlines content).foldl loadEnvStep []

/-- Filesystem state visible while `write_env` runs: the temporary file's
contents and the target `.env` file's contents. -/
structure FsState where
  temp : String
  target : String
deriving DecidableEq

/-- The primitive filesystem steps of `write_env`'s body: create the temporary
file in the target's directory, write the content into it (modelled one
character at a time so that an interruption mid-write is representable), and
`os.replace` the temporary file onto the target in one atomic step. -/
inductive FsOp where
  | createTemp
  | appendTemp (c : Char)
  | renameTempToTarget
deriving DecidableEq

def applyFsOp (s : FsState) : FsOp → FsState
  | .createTemp => { s with temp := "" }
  | .appendTemp c => { s with temp := s.temp.push c }
  | .renameTempToTarget => { s with target := s.temp }

def runFsOps (s : FsState) (ops : List FsOp) : FsState :=
  ops.foldl applyFsOp s

/-- The operation sequence one `write_env` body performs for a given serialized
content: the target file is never written directly, only renamed onto. -/
def write_env_ops (content : String) : List FsOp :=
  FsOp.createTemp :: (content.data.map FsOp.appendTemp ++ [FsOp.renameTempToTarget])

/-- Outcome of `file_lock` acquisition: either the exclusive lock is obtained,
or the bounded wait elapses and `TimeoutError` is raised into `load_env_file`
or `write_env`. -/
inductive LockResult where
  | acquired
  | timedOut
deriving DecidableEq

/-- The function `load_env_file`, with the lock outcome and the file's current contents
(`none` when the file does not exist) made explicit.  The source's
`try`/`except TimeoutError` shape is kept: the handler re-runs the same
unlocked read of the existing file.  `Except` carries any exception the
function would propagate to its caller. -/
def load_env_file (lock : LockResult) (fileContent : Option String) :
    Except String EnvMap :=
  match lock with
  | .acquired =>
    match fileContent with
    | some c => .ok (load_env_content c)
    | none => .ok []
  | .timedOut =>
    match fileContent with
    | some c => .ok (load_env_content c)
    | none => .ok []

/-- The function `write_env`, with the lock outcome explicit: the locked path and the
`except TimeoutError` handler both perform the same temp-file write and rename
of the full serialized document; no exception is propagated. -/
def write_env (lock : LockResult) (m : EnvMap) :
    Except String (List FsOp) :=
  match lock with
  | .acquired => .ok (write_env_ops (write_env_content m))
  | .timedOut => .ok (write_env_ops (write_env_content m))

/-- The function `update_env_repo(slug, url, def_branch, status, repo_dir)` in this
generation has the body `pass` (source comment: "Eliminado: ahora el registro
se hará en .repo_audit"): it reads nothing and writes nothing, so its action
on any configuration mapping is the identity. -/
def update_env_repo (slug url def_branch status : String) (env : EnvMap) : EnvMap :=
  env

/-- The function `write_repo_audit(url, sync_date, branch)`: append one
`url | sync_date | branch` line to the audit file's text — the per-repository
recording `main` actually performs in this generation. -/
def write_repo_audit (audit url sync_date branch : String) : String :=
  audit ++ (url ++ " | " ++ sync_date ++ " | " ++ branch ++ "\n")

/-! General helper lemmas about `dropWhile`-based stripping. -/

theorem rstrip_decomposition (p : Char → Bool) (l : List Char) :
    l = (l.reverse.dropWhile p).reverse ++ (l.reverse.takeWhile p).reverse := by
  calc l = l.reverse.reverse := (l.reverse_reverse).symm
    _ = (l.reverse.takeWhile p ++ l.reverse.dropWhile p).reverse := by
        rw [List.takeWhile_append_dropWhile]
    _ = (l.reverse.dropWhile p).reverse ++ (l.reverse.takeWhile p).reverse := by
        rw [List.reverse_append]

theorem head?_dropWhile_false {α : Type} (p : α → Bool) (l : List α) (c : α)
    (h : (l.dropWhile p).head? = some c) : p c = false := by
  induction l with
  | nil => simp [List.dropWhile] at h
  | cons a t ih =>
    rw [List.dropWhile_cons] at h
    by_cases hp : p a = true
    · exact ih (by simpa [hp] using h)
    · rw [if_neg hp] at h
      simp only [List.head?_cons, Option.some.injEq] at h
      subst h
      exact Bool.eq_false_iff.mpr hp

theorem dropWhile_eq_self_of_head {α : Type} (p : α → Bool) (l : List α)
    (h : ∀ c, l.head? = some c → p c = false) : l.dropWhile p = l := by
  cases l with
  | nil => rfl
  | cons a t =>
    rw [List.dropWhile_cons, if_neg]
    simp [h a rfl]

/-- The characters removed from the right by `rstrip` all satisfy the
predicate, so for `rstrip("/")` they are slashes. -/
theorem rstrip_slash_removed (l : List Char) :
    ∃ k, l = pyRstripSlashList l ++ List.replicate k '/' := by
  refine ⟨(l.reverse.takeWhile fun c => c == '/').length, ?_⟩
  have hdec := rstrip_decomposition (fun c => c == '/') l
  have hall : ∀ b ∈ (l.reverse.takeWhile fun c => c == '/').reverse, b = '/' := by
    intro b hb
    have hb' : b ∈ l.reverse.takeWhile fun c => c == '/' := by
      simpa using hb
    have := List.mem_takeWhile_imp hb'
    simpa using this
  have hrep := List.eq_replicate_of_mem hall
  rw [List.length_reverse] at hrep
  rw [pyRstripSlashList, ← hrep]
  exact hdec

/-- The result of `rstrip("/")` does not end in `'/'`. -/
theorem rstrip_slash_getLast (l : List Char) :
    (pyRstripSlashList l).getLast? ≠ some '/' := by
  rw [pyRstripSlashList, List.getLast?_reverse]
  intro h
  have := head?_dropWhile_false (fun c => c == '/') l.reverse '/' h
  simp at this

/-- The function `rstrip` returns a prefix of its input: a non-empty result starts with the
input's first character. -/
theorem rstrip_head (p : Char → Bool) (l : List Char) (c : Char)
    (h : ((l.reverse.dropWhile p).reverse).head? = some c) : l.head? = some c := by
  have hdec := rstrip_decomposition p l
  cases he : (l.reverse.dropWhile p).reverse with
  | nil => rw [he] at h; simp at h
  | cons a t =>
    rw [he] at h
    simp only [List.head?_cons, Option.some.injEq] at h
    subst h
    rw [hdec, he]
    rfl

/-- Applying `strip` to a string that has no leading and no trailing whitespace is the
string itself. -/
theorem pyStripList_eq_self (l : List Char)
    (hh : ∀ c, l.head? = some c → pyIsSpace c = false)
    (hl : ∀ c, l.getLast? = some c → pyIsSpace c = false) :
    pyStripList l = l := by
  rw [pyStripList, dropWhile_eq_self_of_head pyIsSpace l hh]
  rw [dropWhile_eq_self_of_head pyIsSpace l.reverse]
  · exact l.reverse_reverse
  · intro c hc
    rw [List.head?_reverse] at hc
    exact hl c hc

/-- A stripped list has no leading whitespace. -/
theorem pyStripList_head (l : List Char) (c : Char)
    (h : (pyStripList l).head? = some c) : pyIsSpace c = false := by
  rw [pyStripList] at h
  have := rstrip_head pyIsSpace (l.dropWhile pyIsSpace) c h
  exact head?_dropWhile_false pyIsSpace l c this

/-- A stripped list has no trailing whitespace. -/
theorem pyStripList_getLast (l : List Char) (c : Char)
    (h : (pyStripList l).getLast? = some c) : pyIsSpace c = false := by
  rw [pyStripList, List.getLast?_reverse] at h
  exact head?_dropWhile_false pyIsSpace (l.dropWhile pyIsSpace).reverse c h

/-! Claim C4: what `normalize_url_for_list` strips from the right. -/

/-- C4, counterexample: on an input whose trimmed form ends in two slashes the
claim demands that exactly one is removed, i.e. the result `"https://x/"`;
the code's `rstrip("/")` removes both. -/
theorem normalize_url_one_slash_cex :
    normalize_url_for_list ("https://x//") = "https://x" ∧
    normalize_url_for_list ("https://x//") ≠ "https://x/" := by
  decide

/-- C4 (amended): `normalize_url_for_list u` is the whitespace-trimmed input
with ALL trailing `'/'` characters stripped — the trimmed form is the result
followed by some run of slashes, and the result itself never ends in `'/'`. -/
theorem normalize_url_for_list_spec (u : String) :
    (∃ k, pyStripList u.data = (normalize_url_for_list u).data ++ List.replicate k '/') ∧
    (normalize_url_for_list u).data.getLast? ≠ some '/' := by
  constructor
  · exact rstrip_slash_removed (pyStripList u.data)
  · exact rstrip_slash_getLast (pyStripList u.data)

/-! Claim C10: idempotence of `normalize_url_for_list`. -/

/-- C10, counterexample: normalization is not idempotent on `"a /"` — the
first pass leaves the trailing space exposed by the removed slash, the second
pass then removes it. -/
theorem normalize_idempotent_cex :
    normalize_url_for_list ("a /") = "a " ∧
    normalize_url_for_list (normalize_url_for_list ("a /")) ≠ normalize_url_for_list ("a /") := by
  decide

/-- C10 (amended): `normalize_url_for_list` is idempotent on every input whose
normalized form does not end in a whitespace character (in particular on every
whitespace-free URL). -/
theorem normalize_idempotent_of_no_trailing_space (u : String)
    (h : ((normalize_url_for_list u).data.getLast?.all fun c => !pyIsSpace c) = true) :
    normalize_url_for_list (normalize_url_for_list u) = normalize_url_for_list u := by
  have hdata : (normalize_url_for_list u).data = pyRstripSlashList (pyStripList u.data) := rfl
  have hlast : ∀ c, (normalize_url_for_list u).data.getLast? = some c → pyIsSpace c = false := by
    intro c hc
    rw [hc] at h
    simpa [Option.all] using h
  have hstrip : pyStripList (normalize_url_for_list u).data = (normalize_url_for_list u).data := by
    apply pyStripList_eq_self
    · intro c hc
      rw [hdata] at hc
      have h1 : (pyStripList u.data).head? = some c :=
        rstrip_head (fun x => x == '/') (pyStripList u.data) c hc
      exact pyStripList_head u.data c h1
    · exact hlast
  have hd : (normalize_url_for_list u).data.reverse.dropWhile (fun c => c == '/')
      = (normalize_url_for_list u).data.reverse := by
    apply dropWhile_eq_self_of_head
    intro c hc
    rw [List.head?_reverse] at hc
    have h2 := rstrip_slash_getLast (pyStripList u.data)
    rw [← hdata] at h2
    have hne : c ≠ '/' := by
      intro hcs
      exact h2 (by rw [← hcs]; exact hc)
    simpa using hne
  have hrs : pyRstripSlashList (normalize_url_for_list u).data = (normalize_url_for_list u).data := by
    rw [pyRstripSlashList, hd, List.reverse_reverse]
  calc normalize_url_for_list (normalize_url_for_list u)
      = ⟨pyRstripSlashList (pyStripList (normalize_url_for_list u).data)⟩ := rfl
    _ = ⟨(normalize_url_for_list u).data⟩ := by rw [hstrip, hrs]
    _ = normalize_url_for_list u := rfl

/-- Witness for C10 (amended) at the concrete input `"https://x/"`. -/
theorem normalize_idempotent_witness :
    ((normalize_url_for_list ("https://x/")).data.getLast?.all fun c => !pyIsSpace c) = true ∧
    normalize_url_for_list (normalize_url_for_list ("https://x/")) =
      normalize_url_for_list ("https://x/") :=
  ⟨by decide, normalize_idempotent_of_no_trailing_space ("https://x/") (by decide)⟩

/-! Claim C9: `parse_repo_list` on mixed comma and newline separators. -/

/-- C9: on one line holding two comma-separated URLs followed by a second
line, `parse_repo_list` yields exactly the three entries in order. -/
theorem parse_repo_list_mixed_separators :
    parse_repo_list ("https://a.com/r1,https://b.com/r2\nhttps://c.com/r3") =
      ["https://a.com/r1", "https://b.com/r2", "https://c.com/r3"] := by
  decide

/-! Lookup lemmas for the migration fold. -/

theorem envGet_envPop_self (m : EnvMap) (k : String) : envGet (envPop m k) k = none := by
  induction m with
  | nil => rfl
  | cons kv rest ih =>
    rw [envPop, List.filter_cons]
    by_cases h : kv.1 = k
    · simp only [h, bne_self_eq_false]
      exact ih
    · rw [if_pos (by simpa using h)]
      cases kv with
      | mk k1 v1 =>
        simp only at h
        rw [envGet, if_neg h]
        exact ih

theorem envGet_envPop_ne (m : EnvMap) (k k2 : String) (h : k ≠ k2) :
    envGet (envPop m k2) k = envGet m k := by
  induction m with
  | nil => rfl
  | cons kv rest ih =>
    rw [envPop, List.filter_cons]
    cases kv with
    | mk k1 v1 =>
      by_cases h1 : k1 = k2
      · rw [if_neg (by simpa using h1)]
        rw [envGet, if_neg (by rw [h1]; exact fun hk => h hk.symm)]
        exact ih
      · rw [if_pos (by simpa using h1)]
        rw [envGet, envGet]
        by_cases h2 : k1 = k
        · rw [if_pos h2, if_pos h2]
        · rw [if_neg h2, if_neg h2]
          exact ih

theorem envGet_none_of_not_mem (m : EnvMap) (k : String) (h : k ∉ m.map Prod.fst) :
    envGet m k = none := by
  induction m with
  | nil => rfl
  | cons kv rest ih =>
    rw [envGet]
    rw [List.map_cons, List.mem_cons] at h
    push_neg at h
    rw [if_neg (fun hk => h.1 hk.symm)]
    exact ih h.2

/-- One migration step never resurrects a key. -/
theorem migrateStep_none (m : EnvMap) (k k2 : String) (h : envGet m k = none) :
    envGet (if matchesOldRepoKey k2 then envPop m k2 else m) k = none := by
  by_cases hm : matchesOldRepoKey k2
  · rw [if_pos hm]
    by_cases hk : k = k2
    · rw [hk]; exact envGet_envPop_self m k2
    · rw [envGet_envPop_ne m k k2 hk]; exact h
  · rw [if_neg hm]; exact h

theorem migrateFold_none (ks : List String) (m : EnvMap) (k : String)
    (h : envGet m k = none) :
    envGet (ks.foldl (fun m2 k2 => if matchesOldRepoKey k2 then envPop m2 k2 else m2) m) k
      = none := by
  induction ks generalizing m with
  | nil => exact h
  | cons k2 rest ih =>
    rw [List.foldl_cons]
    exact ih _ (migrateStep_none m k k2 h)

theorem migrateFold_not_matched (ks : List String) (m : EnvMap) (k : String)
    (h : matchesOldRepoKey k = false) :
    envGet (ks.foldl (fun m2 k2 => if matchesOldRepoKey k2 then envPop m2 k2 else m2) m) k
      = envGet m k := by
  induction ks generalizing m with
  | nil => rfl
  | cons k2 rest ih =>
    rw [List.foldl_cons]
    rw [ih]
    by_cases hm : matchesOldRepoKey k2
    · rw [if_pos hm]
      apply envGet_envPop_ne
      intro hk
      rw [hk, hm] at h
      exact absurd h (by decide)
    · rw [if_neg hm]

theorem migrateFold_matched_mem (ks : List String) (m : EnvMap) (k : String)
    (hmatch : matchesOldRepoKey k = true) (hmem : k ∈ ks) :
    envGet (ks.foldl (fun m2 k2 => if matchesOldRepoKey k2 then envPop m2 k2 else m2) m) k
      = none := by
  induction ks generalizing m with
  | nil => exact absurd hmem (List.not_mem_nil k)
  | cons k2 rest ih =>
    rw [List.foldl_cons]
    by_cases hk : k ∈ rest
    · exact ih _ hk
    · have hk2 : k = k2 := by
        rcases List.mem_cons.mp hmem with h | h
        · exact h
        · exact absurd h hk
      subst hk2
      rw [if_pos hmatch]
      exact migrateFold_none rest _ k (envGet_envPop_self m k)

/-! Claim C3: exact characterization of `migrate_old_repo_keys`. -/

/-- C3: `migrate_old_repo_keys` deletes exactly the keys fully matching
`REPO_[A-Z0-9_]+` — a class that includes `REPO_LIST` and every
metadata-suffixed key such as `REPO_X_LAST_SYNC` — and leaves every other
key's value unchanged. -/
theorem migrate_old_repo_keys_spec :
    (∀ (env : EnvMap) (k : String),
      envGet (migrate_old_repo_keys env) k =
        if matchesOldRepoKey k then none else envGet env k) ∧
    matchesOldRepoKey ("REPO_LIST") = true ∧
    matchesOldRepoKey ("REPO_X_LAST_SYNC") = true := by
  refine ⟨fun env k => ?_, by decide, by decide⟩
  by_cases hm : matchesOldRepoKey k
  · rw [if_pos hm, migrate_old_repo_keys]
    by_cases hmem : k ∈ env.map Prod.fst
    · exact migrateFold_matched_mem _ env k hm hmem
    · exact migrateFold_none _ env k (envGet_none_of_not_mem env k hmem)
  · rw [if_neg hm, migrate_old_repo_keys]
    exact migrateFold_not_matched _ env k (by simpa using hm)

/-! Claim C2: the migrator's pattern versus the metadata suffixes. -/

/-- The legacy pattern holds for any key `REPO_` + non-empty `[A-Z0-9_]+` tail. -/
theorem matchesOldRepoKey_of_data (k : String) (rest : List Char)
    (hdata : k.data = 'R' :: 'E' :: 'P' :: 'O' :: '_' :: rest)
    (hne : rest ≠ []) (hall : rest.all isOldRepoKeyChar = true) :
    matchesOldRepoKey k = true := by
  have hk : matchesOldRepoKey k = (!rest.isEmpty && rest.all isOldRepoKeyChar) := by
    unfold matchesOldRepoKey
    rw [hdata]
    rfl
  rw [hk, hall]
  cases rest with
  | nil => exact absurd rfl hne
  | cons c t => rfl

/-- C2, counterexample: the recognition pattern does match a metadata-suffixed
key, and the migrator deletes it. -/
theorem migrate_pattern_cex :
    matchesOldRepoKey ("REPO_X_LAST_SYNC") = true ∧
    migrate_old_repo_keys [("REPO_X_LAST_SYNC", "2024-01-01T00:00:00Z")] = [] := by
  decide

/-- C2 (amended): far from excluding them, `migrate_old_repo_keys` removes
every key of the form `REPO_<slug>_<suffix>` for any non-empty `[A-Z0-9_]`
slug and any of the five known metadata suffixes, since such keys fully match
`REPO_[A-Z0-9_]+`. -/
theorem migrate_removes_suffixed_keys (env : EnvMap) (slug sfx : String)
    (hslug : slug.data ≠ [] ∧ slug.data.all isOldRepoKeyChar = true)
    (hsfx : sfx ∈ (["DEFAULT_BRANCH", "LAST_SYNC", "LAST_STATUS", "LAST_COMMIT",
      "ACTIVE_BRANCH"] : List String)) :
    envGet (migrate_old_repo_keys env) ("REPO_" ++ slug ++ "_" ++ sfx) = none := by
  have hdata : ("REPO_" ++ slug ++ "_" ++ sfx).data
      = 'R' :: 'E' :: 'P' :: 'O' :: '_' :: (slug.data ++ '_' :: sfx.data) := by
    rw [String.data_append, String.data_append, String.data_append]
    rw [show ("REPO_").data = ['R', 'E', 'P', 'O', '_'] from rfl,
      show ("_").data = ['_'] from rfl]
    simp
  have hsfxall : sfx.data.all isOldRepoKeyChar = true := by
    simp only [List.mem_cons, List.not_mem_nil, or_false] at hsfx
    rcases hsfx with h | h | h | h | h <;> (subst h; decide)
  have hall : (slug.data ++ '_' :: sfx.data).all isOldRepoKeyChar = true := by
    rw [List.all_append, hslug.2]
    rw [List.all_cons, hsfxall]
    rfl
  have hmatch := matchesOldRepoKey_of_data _ _ hdata (by simp) hall
  rw [migrate_old_repo_keys]
  by_cases hmem : ("REPO_" ++ slug ++ "_" ++ sfx) ∈ env.map Prod.fst
  · exact migrateFold_matched_mem _ env _ hmatch hmem
  · exact migrateFold_none _ env _ (envGet_none_of_not_mem env _ hmem)

/-- Witness for C2 (amended): the key `REPO_X_LAST_SYNC` is removed. -/
theorem migrate_removes_suffixed_keys_witness :
    ("X".data ≠ [] ∧ "X".data.all isOldRepoKeyChar = true) ∧
    "LAST_SYNC" ∈ (["DEFAULT_BRANCH", "LAST_SYNC", "LAST_STATUS", "LAST_COMMIT",
      "ACTIVE_BRANCH"] : List String) ∧
    envGet (migrate_old_repo_keys [("REPO_" ++ "X" ++ "_" ++ "LAST_SYNC", "t")])
      ("REPO_" ++ "X" ++ "_" ++ "LAST_SYNC") = none :=
  ⟨⟨by decide, by decide⟩, by decide,
    migrate_removes_suffixed_keys [("REPO_" ++ "X" ++ "_" ++ "LAST_SYNC", "t")] "X"
      "LAST_SYNC" ⟨by decide, by decide⟩ (by decide)⟩

/-! Claim C1: the per-repository metadata update. -/

/-- C1, counterexample: at slug `"my-repo"`, URL `"https://x/my-repo"`, branch
`"main"`, status `"cloned"` and the empty store, `update_env_repo` stores none
of the claimed keys — the result holds no default-branch, status, sync
timestamp, or URL-list entry at all. -/
theorem record_outcome_cex :
    update_env_repo ("my-repo") "https://x/my-repo" "main" "cloned" [] = [] ∧
    envGet (update_env_repo ("my-repo") "https://x/my-repo" "main" "cloned" [])
      "REPO_MY_REPO_DEFAULT_BRANCH" = none ∧
    envGet (update_env_repo ("my-repo") "https://x/my-repo" "main" "cloned" [])
      "REPO_MY_REPO_LAST_STATUS" = none ∧
    envGet (update_env_repo ("my-repo") "https://x/my-repo" "main" "cloned" [])
      "REPO_MY_REPO_LAST_SYNC" = none ∧
    envGet (update_env_repo ("my-repo") "https://x/my-repo" "main" "cloned" [])
      "REPO_LIST" = none := by
  decide

/-- C1 (amended): in this generation `update_env_repo` is a stub (`pass`): for
every slug, URL, branch, status and store it returns the configuration mapping
unchanged and writes no per-repository metadata key; the sync outcome is
instead appended to the separate `.repo_audit` file by `main` via
`write_repo_audit`. -/
theorem update_env_repo_no_op (slug url def_branch status : String) (env : EnvMap)
    (k : String) :
    update_env_repo slug url def_branch status env = env ∧
    envGet (update_env_repo slug url def_branch status env) k = envGet env k ∧
    write_repo_audit ("") url ("2024-01-01T00:00:00Z") def_branch
      = url ++ " | " ++ "2024-01-01T00:00:00Z" ++ " | " ++ def_branch ++ "\n" := by
  refine ⟨rfl, rfl, ?_⟩
  rw [write_repo_audit]
  simp [String.append_assoc]

/-! `splitlines` / `joinLines` round-trip lemmas. -/

theorem pySplitlinesAux_cons_newline (rest acc : List Char) :
    pySplitlinesAux ('\n' :: rest) acc false
      = ⟨acc.reverse⟩ :: pySplitlinesAux rest [] false := rfl

theorem pySplitlinesAux_cons_of_not_break (c : Char) (rest acc : List Char)
    (hc : isLineBreakChar c = false) :
    pySplitlinesAux (c :: rest) acc false = pySplitlinesAux rest (c :: acc) false := by
  have hcr : (c == '\r') = false := by
    have h : c ≠ '\r' := by
      intro h
      rw [h] at hc
      exact absurd hc (by decide)
    simpa using h
  rw [pySplitlinesAux]
  rw [Bool.false_and, hcr, hc]
  rfl

/-- Consuming a break-free chunk just accumulates it (reversed). -/
theorem pySplitlinesAux_append (l : List Char) (hl : ∀ c ∈ l, isLineBreakChar c = false) :
    ∀ rest acc : List Char,
      pySplitlinesAux (l ++ rest) acc false = pySplitlinesAux rest (l.reverse ++ acc) false := by
  induction l with
  | nil => intro rest acc; simp
  | cons c t ih =>
    intro rest acc
    have hc := hl c (List.mem_cons_self c t)
    rw [List.cons_append, pySplitlinesAux_cons_of_not_break c _ _ hc]
    rw [ih (fun x hx => hl x (List.mem_cons_of_mem c hx)) rest (c :: acc)]
    rw [List.reverse_cons, List.append_assoc]
    rfl

/-- The function `splitlines` inverts `joinLines` on break-free non-empty entries. -/
theorem pySplitlines_joinLines (L : List String)
    (hclean : ∀ s ∈ L, s ≠ "" ∧ ∀ c ∈ s.data, isLineBreakChar c = false) :
    pySplitlines (joinLines L) = L := by
  induction L with
  | nil => rfl
  | cons s t ih =>
    cases t with
    | nil =>
      have h1 : joinLines [s] = s := rfl
      rw [h1, pySplitlines]
      have h2 := pySplitlinesAux_append s.data
        (fun c hc => (hclean s (List.mem_cons_self s [])).2 c hc) [] []
      rw [show s.data ++ ([] : List Char) = s.data by simp] at h2
      rw [h2, pySplitlinesAux]
      have hne : s.data ≠ [] := by
        intro h
        exact (hclean s (List.mem_cons_self s [])).1 (String.ext h)
      rw [if_neg (by simpa using hne)]
      simp
    | cons s2 t2 =>
      have h1 : joinLines (s :: s2 :: t2) = s ++ "\n" ++ joinLines (s2 :: t2) := rfl
      rw [h1, pySplitlines]
      have h2 : ((s ++ "\n") ++ joinLines (s2 :: t2)).data
          = s.data ++ ('\n' :: (joinLines (s2 :: t2)).data) := by
        rw [String.data_append, String.data_append]
        simp
      rw [h2]
      rw [pySplitlinesAux_append s.data
        (fun c hc => (hclean s (List.mem_cons_self s _)).2 c hc) _ []]
      rw [pySplitlinesAux_cons_newline]
      rw [show pySplitlinesAux (joinLines (s2 :: t2)).data [] false
          = pySplitlines (joinLines (s2 :: t2)) from rfl]
      rw [ih (fun x hx => hclean x (List.mem_cons_of_mem s hx))]
      simp

/-- The function `splitlines` inverts `joinLines` followed by a final newline, for
break-free entries (entries may be empty here). -/
theorem pySplitlines_joinLines_newline (L : List String) (h0 : L ≠ [])
    (hclean : ∀ s ∈ L, ∀ c ∈ s.data, isLineBreakChar c = false) :
    pySplitlines (joinLines L ++ "\n") = L := by
  induction L with
  | nil => exact absurd rfl h0
  | cons s t ih =>
    cases t with
    | nil =>
      have h1 : (joinLines [s] ++ "\n").data = s.data ++ ('\n' :: []) := by
        rw [show joinLines [s] = s from rfl, String.data_append]
      rw [pySplitlines, h1]
      rw [pySplitlinesAux_append s.data (fun c hc => hclean s (List.mem_cons_self s _) c hc) _ []]
      rw [pySplitlinesAux_cons_newline]
      simp [pySplitlinesAux]
    | cons s2 t2 =>
      have h1 : (joinLines (s :: s2 :: t2) ++ "\n").data
          = s.data ++ ('\n' :: (joinLines (s2 :: t2) ++ "\n").data) := by
        rw [show joinLines (s :: s2 :: t2) = s ++ "\n" ++ joinLines (s2 :: t2) from rfl]
        rw [String.data_append, String.data_append, String.data_append]
        simp
      rw [pySplitlines, h1]
      rw [pySplitlinesAux_append s.data (fun c hc => hclean s (List.mem_cons_self s _) c hc) _ []]
      rw [pySplitlinesAux_cons_newline]
      rw [show pySplitlinesAux (joinLines (s2 :: t2) ++ "\n").data [] false
          = pySplitlines (joinLines (s2 :: t2) ++ "\n") from rfl]
      rw [ih (by simp) (fun x hx => hclean x (List.mem_cons_of_mem s hx))]
      simp

/-! Claim C5: `ensure_url_in_repo_list`. -/

/-- Parsing a stored URL list made of clean entries recovers the entries. -/
theorem repo_list_items_eq (L : List String)
    (hclean : ∀ l ∈ L, pyStrip l = l ∧ l ≠ "" ∧ ∀ c ∈ l.data, isLineBreakChar c = false) :
    ((pySplitlines (joinLines L)).map pyStrip).filter (fun x => x != "") = L := by
  rw [pySplitlines_joinLines L (fun s hs => ⟨(hclean s hs).2.1, (hclean s hs).2.2⟩)]
  rw [List.map_congr_left (fun a ha => (hclean a ha).1), List.map_id']
  rw [List.filter_eq_self.mpr]
  intro a ha
  simpa using (hclean a ha).2.1

/-- C5: against a store whose `REPO_LIST` holds the clean entries `L`, the
operation appends exactly the normalized URL at the end and returns `true`
when no entry of `L` normalizes to the same value, and returns `false`
leaving the store entirely unchanged when one does. -/
theorem ensure_url_in_repo_list_spec (env : EnvMap) (L : List String) (u : String)
    (hclean : ∀ l ∈ L, pyStrip l = l ∧ l ≠ "" ∧ ∀ c ∈ l.data, isLineBreakChar c = false)
    (hget : envGet env "REPO_LIST" = some (joinLines L)) :
    (normalize_url_for_list u ∉ L.map normalize_url_for_list →
      ensure_url_in_repo_list env u =
        (envSet env "REPO_LIST" (joinLines (L ++ [normalize_url_for_list u])), true)) ∧
    (normalize_url_for_list u ∈ L.map normalize_url_for_list →
      ensure_url_in_repo_list env u = (env, false)) := by
  have hitems : ((pySplitlines ((envGet env "REPO_LIST").getD "")).map pyStrip).filter
      (fun x => x != "") = L := by
    rw [hget]
    exact repo_list_items_eq L hclean
  constructor
  · intro hmem
    rw [ensure_url_in_repo_list]
    simp only [hitems]
    rw [if_neg hmem]
  · intro hmem
    rw [ensure_url_in_repo_list]
    simp only [hitems]
    rw [if_pos hmem]

/-- Witness for C5 at a store holding one URL and a new, distinct URL. -/
theorem ensure_url_in_repo_list_spec_witness :
    ensure_url_in_repo_list [("REPO_LIST", "https://a.com/r1")] "https://c.com/r3" =
      (envSet [("REPO_LIST", "https://a.com/r1")] "REPO_LIST"
        (joinLines (["https://a.com/r1"] ++ [normalize_url_for_list "https://c.com/r3"])),
        true) :=
  (ensure_url_in_repo_list_spec [("REPO_LIST", "https://a.com/r1")] ["https://a.com/r1"]
    "https://c.com/r3" (by decide) (by decide)).1 (by decide)

/-! Claim C7: the temp-file-then-rename protocol never exposes a partial
target. -/

/-- Operations other than the rename never touch the target file. -/
theorem runFsOps_target_of_no_rename (ops : List FsOp) (s : FsState)
    (h : ∀ op ∈ ops, op ≠ FsOp.renameTempToTarget) :
    (runFsOps s ops).target = s.target := by
  induction ops generalizing s with
  | nil => rfl
  | cons op rest ih =>
    rw [runFsOps, List.foldl_cons]
    rw [show List.foldl applyFsOp (applyFsOp s op) rest
        = runFsOps (applyFsOp s op) rest from rfl]
    rw [ih _ (fun o ho => h o (List.mem_cons_of_mem op ho))]
    cases op with
    | createTemp => rfl
    | appendTemp c => rfl
    | renameTempToTarget => exact absurd rfl (h _ (List.mem_cons_self _ _))

/-- Writing characters into the temp file appends them there and leaves the
target alone. -/
theorem runFsOps_append_temps (cs : List Char) (s : FsState) :
    runFsOps s (cs.map FsOp.appendTemp) = ⟨⟨s.temp.data ++ cs⟩, s.target⟩ := by
  induction cs generalizing s with
  | nil => simp [runFsOps]
  | cons c t ih =>
    rw [List.map_cons, runFsOps, List.foldl_cons]
    rw [show List.foldl applyFsOp (applyFsOp s (FsOp.appendTemp c)) (t.map FsOp.appendTemp)
        = runFsOps (applyFsOp s (FsOp.appendTemp c)) (t.map FsOp.appendTemp) from rfl]
    rw [ih]
    simp [applyFsOp, String.data_push]

/-- Running the whole of `write_env`'s operation sequence installs exactly the
serialized content as the target. -/
theorem runFsOps_write_env_ops (content old : String) :
    runFsOps ⟨"", old⟩ (write_env_ops content) = ⟨content, content⟩ := by
  rw [write_env_ops, runFsOps, List.foldl_cons]
  rw [show applyFsOp ⟨"", old⟩ FsOp.createTemp = ⟨"", old⟩ from rfl]
  rw [List.foldl_append]
  rw [show List.foldl applyFsOp (⟨"", old⟩ : FsState) (content.data.map FsOp.appendTemp)
      = runFsOps ⟨"", old⟩ (content.data.map FsOp.appendTemp) from rfl]
  rw [runFsOps_append_temps]
  simp [applyFsOp]

/-- C7: a `write_env` interrupted after any number `n` of its primitive steps
leaves the target either exactly the old document or exactly the new
serialized document — never a partial write; the full content reaches the
target only through the single atomic rename. -/
theorem write_env_atomic (m : EnvMap) (old : String) (n : Nat) :
    (runFsOps ⟨"", old⟩ ((write_env_ops (write_env_content m)).take n)).target = old ∨
    (runFsOps ⟨"", old⟩ ((write_env_ops (write_env_content m)).take n)).target
      = write_env_content m := by
  by_cases h : (write_env_ops (write_env_content m)).length ≤ n
  · right
    rw [List.take_of_length_le h, runFsOps_write_env_ops]
  · left
    push_neg at h
    apply runFsOps_target_of_no_rename
    intro op hop
    have hfront : write_env_ops (write_env_content m)
        = (FsOp.createTemp :: (write_env_content m).data.map FsOp.appendTemp)
          ++ [FsOp.renameTempToTarget] := by
      rw [write_env_ops]
      rfl
    have hlen : (write_env_ops (write_env_content m)).length
        = (FsOp.createTemp :: (write_env_content m).data.map FsOp.appendTemp).length + 1 := by
      rw [hfront]
      simp
    have hn : n ≤ (FsOp.createTemp :: (write_env_content m).data.map FsOp.appendTemp).length := by
      omega
    rw [hfront, List.take_append_of_le_length hn] at hop
    have hop2 := List.mem_of_mem_take hop
    rcases List.mem_cons.mp hop2 with h1 | h1
    · rw [h1]
      intro hcontra
      exact FsOp.noConfusion hcontra
    · rcases List.mem_map.mp h1 with ⟨c, _, hceq⟩
      rw [← hceq]
      intro hcontra
      exact FsOp.noConfusion hcontra

/-! Claim C8: behaviour when lock acquisition times out. -/

/-- C8: on `LockTimeout`, `load_env_file` still returns the parsed mapping of
the existing file (or the empty mapping when the file is absent) and
`write_env` still performs the same best-effort temp-file write and rename of
the full document, installing it as the target; neither propagates the
timeout as an error. -/
theorem lock_timeout_fallback :
    (∀ c : String, load_env_file LockResult.timedOut (some c)
      = Except.ok (load_env_content c)) ∧
    load_env_file LockResult.timedOut none = Except.ok ([] : EnvMap) ∧
    ∀ m : EnvMap,
      write_env LockResult.timedOut m = Except.ok (write_env_ops (write_env_content m)) ∧
      ∀ old : String,
        (runFsOps ⟨"", old⟩ (write_env_ops (write_env_content m))).target
          = write_env_content m := by
  refine ⟨fun c => rfl, rfl, fun m => ⟨rfl, fun old => ?_⟩⟩
  rw [runFsOps_write_env_ops]

/-! Claim C6: load after save. -/

theorem all_not_break_of_all (l : List Char)
    (h : (l.all fun c => !isLineBreakChar c) = true) :
    ∀ c ∈ l, isLineBreakChar c = false := by
  intro c hc
  have h2 := List.all_eq_true.mp h c hc
  simpa using h2

theorem envSet_append_of_not_mem (acc : EnvMap) (k v : String)
    (h : k ∉ acc.map Prod.fst) : envSet acc k v = acc ++ [(k, v)] := by
  induction acc with
  | nil => rfl
  | cons kv rest ih =>
    rw [List.map_cons, List.mem_cons] at h
    push_neg at h
    cases kv with
    | mk k1 v1 =>
      rw [envSet, if_neg (fun he => h.1 he.symm)]
      rw [ih h.2]
      rfl

/-- An entry line `key=value` with clean key and value strips to itself. -/
theorem entry_line_strip (k v : List Char)
    (hk : pyStripList k = k) (hv : pyStripList v = v) :
    pyStripList (k ++ '=' :: v) = k ++ '=' :: v := by
  apply pyStripList_eq_self
  · intro c hc
    cases k with
    | nil =>
      simp only [List.nil_append, List.head?_cons, Option.some.injEq] at hc
      rw [← hc]
      decide
    | cons a t =>
      rw [List.cons_append, List.head?_cons, Option.some.injEq] at hc
      apply pyStripList_head (a :: t) c
      rw [hk, List.head?_cons, hc]
  · intro c hc
    cases hvd : v with
    | nil =>
      rw [hvd] at hc
      rw [List.getLast?_concat] at hc
      injection hc with h
      subst h
      decide
    | cons b bt =>
      rw [hvd] at hc
      have h2 : (k ++ '=' :: b :: bt).getLast? = (b :: bt).getLast? := by
        rw [show ('=' :: b :: bt) = ['='] ++ (b :: bt) from rfl]
        rw [← List.append_assoc, List.getLast?_append, List.getLast?_append]
        cases hgl : (b :: bt).getLast? with
        | none => simp at hgl
        | some x => rfl
      rw [h2] at hc
      apply pyStripList_getLast v c
      rw [hv, hvd, hc]

theorem startsWithHash_entry (k v : List Char) (hk : startsWithHash k = false) :
    startsWithHash (k ++ '=' :: v) = false := by
  cases k with
  | nil => rfl
  | cons a t => exact hk

theorem takeWhile_ne_eq_append (k v : List Char) (hk : '=' ∉ k) :
    ((k ++ '=' :: v).takeWhile fun c => c != '=') = k := by
  induction k with
  | nil => simp [List.takeWhile_cons]
  | cons a t ih =>
    rw [List.cons_append, List.takeWhile_cons]
    rw [List.mem_cons] at hk
    push_neg at hk
    rw [if_pos (by simpa using Ne.symm hk.1)]
    rw [ih hk.2]

theorem dropWhile_ne_eq_append (k v : List Char) (hk : '=' ∉ k) :
    ((k ++ '=' :: v).dropWhile fun c => c != '=') = '=' :: v := by
  induction k with
  | nil => simp [List.dropWhile_cons]
  | cons a t ih =>
    rw [List.cons_append, List.dropWhile_cons]
    rw [List.mem_cons] at hk
    push_neg at hk
    rw [if_pos (by simpa using Ne.symm hk.1)]
    exact ih hk.2

theorem splitFirstEq_entry (k v : List Char) (hk : '=' ∉ k) :
    splitFirstEq (k ++ '=' :: v) = (k, v) := by
  rw [splitFirstEq, takeWhile_ne_eq_append k v hk, dropWhile_ne_eq_append k v hk]
  rfl

/-- Processing the serialized line of a clean entry stores exactly that
entry. -/
theorem loadEnvStep_entry (acc : EnvMap) (kv : String × String)
    (hk1 : pyStrip kv.1 = kv.1) (hk2 : '=' ∉ kv.1.data)
    (hk3 : startsWithHash kv.1.data = false)
    (hv1 : pyStrip kv.2 = kv.2) :
    loadEnvStep acc (kv.1 ++ "=" ++ kv.2) = envSet acc kv.1 kv.2 := by
  have hline : (kv.1 ++ "=" ++ kv.2).data = kv.1.data ++ '=' :: kv.2.data := by
    rw [String.data_append, String.data_append]
    simp
  have hk1d : pyStripList kv.1.data = kv.1.data := congrArg String.data hk1
  have hv1d : pyStripList kv.2.data = kv.2.data := congrArg String.data hv1
  rw [loadEnvStep, hline]
  rw [entry_line_strip kv.1.data kv.2.data hk1d hv1d]
  rw [startsWithHash_entry kv.1.data kv.2.data hk3]
  rw [if_pos (by simp)]
  rw [splitFirstEq_entry kv.1.data kv.2.data hk2]
  rw [show (kv.1.data, kv.2.data).1 = kv.1.data from rfl,
    show (kv.1.data, kv.2.data).2 = kv.2.data from rfl]
  rw [hk1d, hv1d]

/-- Folding the serialized entry lines onto an accumulator with disjoint keys
appends exactly the entries. -/
theorem foldl_loadEnvStep_entries (m : EnvMap) :
    ∀ acc : EnvMap,
    (∀ kv ∈ m, pyStrip kv.1 = kv.1 ∧ ('=' ∉ kv.1.data) ∧
      startsWithHash kv.1.data = false ∧ pyStrip kv.2 = kv.2) →
    (m.map Prod.fst).Nodup →
    (∀ kv ∈ m, kv.1 ∉ acc.map Prod.fst) →
    (m.map fun kv => kv.1 ++ "=" ++ kv.2).foldl loadEnvStep acc = acc ++ m := by
  induction m with
  | nil =>
    intro acc _ _ _
    simp
  | cons kv rest ih =>
    intro acc hgood hnodup hdisj
    rw [List.map_cons, List.foldl_cons]
    obtain ⟨h1, h2, h3, h4⟩ := hgood kv (List.mem_cons_self kv rest)
    rw [loadEnvStep_entry acc kv h1 h2 h3 h4]
    rw [envSet_append_of_not_mem acc kv.1 kv.2 (hdisj kv (List.mem_cons_self kv rest))]
    have hhead : kv.1 ∉ rest.map Prod.fst := by
      rw [List.map_cons] at hnodup
      exact List.nodup_cons.mp hnodup |>.1
    rw [ih (acc ++ [(kv.1, kv.2)])
      (fun x hx => hgood x (List.mem_cons_of_mem kv hx))
      (by rw [List.map_cons] at hnodup; exact List.nodup_cons.mp hnodup |>.2)
      ?hdisj2]
    · simp
    case hdisj2 =>
      intro x hx
      rw [List.map_append, List.mem_append]
      push_neg
      constructor
      · exact hdisj x (List.mem_cons_of_mem kv hx)
      · intro hmem
        simp only [List.map_cons, List.map_nil, List.mem_singleton] at hmem
        exact hhead (hmem ▸ List.mem_map_of_mem Prod.fst hx)

/-- C6, counterexample: the round-trip fails for a mapping whose key contains
no `'='` but starts with `'#'` — the written line is taken for a comment and
skipped on load. -/
theorem env_roundtrip_cex :
    ('=' ∉ "#A".data) ∧
    load_env_content (write_env_content [("#A", "x")]) ≠ [("#A", "x")] := by
  decide

/-- C6 (amended): loading immediately after saving returns the same mapping
for every mapping whose keys are distinct, `'='`-free, whitespace-clean, not
starting with `'#'` and free of line breaks, and whose values are
whitespace-clean and free of line breaks. -/
theorem load_env_after_write_env (m : EnvMap)
    (hkeys : ∀ kv ∈ m, pyStrip kv.1 = kv.1 ∧ ('=' ∉ kv.1.data) ∧
      startsWithHash kv.1.data = false ∧ ∀ c ∈ kv.1.data, isLineBreakChar c = false)
    (hvals : ∀ kv ∈ m, pyStrip kv.2 = kv.2 ∧ ∀ c ∈ kv.2.data, isLineBreakChar c = false)
    (hnodup : (m.map Prod.fst).Nodup) :
    load_env_content (write_env_content m) = m := by
  rw [load_env_content, write_env_content]
  rw [pySplitlines_joinLines_newline _ (by simp [envHeaderLines]) ?hbreaks]
  case hbreaks =>
    intro s hs
    rw [List.mem_append] at hs
    rcases hs with hs | hs
    · simp only [envHeaderLines, List.mem_cons, List.not_mem_nil, or_false] at hs
      rcases hs with h | h | h
      all_goals (rw [h]; exact all_not_break_of_all _ (by decide))
    · rcases List.mem_map.mp hs with ⟨kv, hkv, hmap⟩
      intro c hc
      rw [← hmap] at hc
      rw [show (kv.1 ++ "=" ++ kv.2).data = kv.1.data ++ '=' :: kv.2.data by
        rw [String.data_append, String.data_append]; simp] at hc
      rw [List.mem_append, List.mem_cons] at hc
      rcases hc with hc | hc | hc
      · exact (hkeys kv hkv).2.2.2 c hc
      · rw [hc]; decide
      · exact (hvals kv hkv).2 c hc
  rw [List.foldl_append]
  rw [show envHeaderLines.foldl loadEnvStep [] = [] from rfl]
  rw [foldl_loadEnvStep_entries m []
    (fun kv hkv => ⟨(hkeys kv hkv).1, (hkeys kv hkv).2.1, (hkeys kv hkv).2.2.1,
      (hvals kv hkv).1⟩)
    hnodup (fun kv _ => by simp)]
  simp

/-- Witness for C6 (amended) at a two-entry mapping. -/
theorem load_env_after_write_env_witness :
    load_env_content (write_env_content [("A", "1"), ("B", "2")]) = [("A", "1"), ("B", "2")] :=
  load_env_after_write_env [("A", "1"), ("B", "2")] (by decide) (by decide) (by decide)

end BbSync
